import Mathlib

/-!
Verification of the spectral feature extraction engine of dial-metric-mp3.

The Rust sources (`src/frequency_bands.rs`, `src/main.rs`) are shallowly
embedded below.  Finite IEEE float values are modelled exactly as rationals;
the special values NaN and ±∞ are tracked explicitly by the type `F`, with
the IEEE semantics of the arithmetic used by the program (`0/0 = NaN`,
`NaN` absorbing in `+`, `*`, `-`, `/`, all comparisons with `NaN` false,
and Rust's `f32::min`/`f64::min` returning the other operand when one side
is `NaN`).  The transcendental float operations (`cos`, `sqrt`, the `PI`
constant) and the external `rustfft` crate have no exact rational form;
they are passed in as parameters (`ExternalOps`), and every theorem holds
for all instantiations (none of the verified properties depends on the
spectral values themselves).  Rust slice indexing, which panics when the
range is invalid, is modelled by `sliceE`, returning `Except.error` exactly
when the Rust code would panic; the embedded functions therefore return
`Except String _` where the source returns `Result` (the source function
`calculate_band_energies` never constructs an `Err`, so every `error`
of the model corresponds to a panic or, in `analyze_frequency_distribution`,
to the explicit "No audio data found" failure).
-/

namespace DialMetric

/-- `const FRAME_SIZE: usize = 2048` (frequency_bands.rs line 3). -/
def FRAME_SIZE : ℕ := 2048

/-- `const HOP_SIZE: usize = 512` (frequency_bands.rs line 4). -/
def HOP_SIZE : ℕ := 512

/-- `pub struct FrequencyBand` (frequency_bands.rs lines 6-9). -/
structure FrequencyBand where
  low_hz : ℕ
  high_hz : ℕ
deriving DecidableEq, Repr

/-- Model of an IEEE float value: a finite value (kept exactly, as a
rational), an infinity with its sign (`neg = true` for `-∞`), or NaN. -/
inductive F where
  | fin (q : ℚ)
  | inf (neg : Bool)
  | nan
deriving DecidableEq, Repr

/-- IEEE float addition on the model. -/
def Fadd : F → F → F
  | F.nan, _ => F.nan
  | _, F.nan => F.nan
  | F.inf s, F.inf t => if s = t then F.inf s else F.nan
  | F.inf s, F.fin _ => F.inf s
  | F.fin _, F.inf t => F.inf t
  | F.fin a, F.fin b => F.fin (a + b)

/-- IEEE float subtraction on the model. -/
def Fsub : F → F → F
  | F.nan, _ => F.nan
  | _, F.nan => F.nan
  | F.inf s, F.inf t => if s = t then F.nan else F.inf s
  | F.inf s, F.fin _ => F.inf s
  | F.fin _, F.inf t => F.inf (!t)
  | F.fin a, F.fin b => F.fin (a - b)

/-- IEEE float multiplication on the model. -/
def Fmul : F → F → F
  | F.nan, _ => F.nan
  | _, F.nan => F.nan
  | F.inf s, F.inf t => F.inf (s != t)
  | F.inf s, F.fin b => if b = 0 then F.nan else F.inf (s != decide (b < 0))
  | F.fin a, F.inf t => if a = 0 then F.nan else F.inf (t != decide (a < 0))
  | F.fin a, F.fin b => F.fin (a * b)

/-- IEEE float division on the model: `0/0` is NaN, a nonzero finite value
divided by zero is a signed infinity. -/
def Fdiv : F → F → F
  | F.nan, _ => F.nan
  | _, F.nan => F.nan
  | F.inf _, F.inf _ => F.nan
  | F.inf s, F.fin b => F.inf (s != decide (b < 0))
  | F.fin _, F.inf _ => F.fin 0
  | F.fin a, F.fin b =>
    if b = 0 then (if a = 0 then F.nan else F.inf (decide (a < 0))) else F.fin (a / b)

/-- IEEE float strict comparison `<`: false whenever either side is NaN. -/
def Flt : F → F → Bool
  | F.nan, _ => false
  | _, F.nan => false
  | F.inf s, F.inf t => s && !t
  | F.inf s, F.fin _ => s
  | F.fin _, F.inf t => !t
  | F.fin a, F.fin b => decide (a < b)

/-- Rust `f32::min` / `f64::min`: if one argument is NaN the other is
returned. -/
def Fmin : F → F → F
  | F.nan, y => y
  | x, F.nan => x
  | F.inf s, F.inf t => F.inf (s || t)
  | F.inf s, F.fin b => if s then F.inf true else F.fin b
  | F.fin a, F.inf t => if t then F.inf true else F.fin a
  | F.fin a, F.fin b => F.fin (min a b)

/-- IEEE float square root: NaN on negative input and NaN, `+∞` on `+∞`;
on nonnegative finite input it applies `sqrtQ`, the (exactly represented)
float square-root function handed in as a parameter. -/
def Fsqrt (sqrtQ : ℚ → ℚ) : F → F
  | F.nan => F.nan
  | F.inf s => if s then F.nan else F.inf false
  | F.fin q => if q < 0 then F.nan else F.fin (sqrtQ q)

/-- `iter().sum()` over floats: a left fold of `+` starting from `0.0`. -/
def Fsum (l : List F) : F := l.foldl Fadd (F.fin 0)

/-- Whether a model float is NaN. -/
def isNan : F → Bool
  | F.nan => true
  | _ => false

/-- The operations of the program that have no exact rational model:
the `f32` constant `PI`, the `f32` functions `cos` and `sqrt` (each a
rational-valued function of its rational argument), and the external
`rustfft` forward FFT acting on a buffer of complex values (pairs of
rationals).  Every theorem below is proved for all instantiations. -/
structure ExternalOps where
  piQ : ℚ
  cosQ : ℚ → ℚ
  sqrtQ : ℚ → ℚ
  fftQ : List (ℚ × ℚ) → List (ℚ × ℚ)

/-- Rust slice indexing `l[lo..hi]`: returns the half-open slice, and
models the panic on an invalid range (`lo > hi` or `hi > l.len()`) as an
`Except.error`. -/
def sliceE {α : Type} (l : List α) (lo hi : ℕ) : Except String (List α) :=
  if lo ≤ hi ∧ hi ≤ l.length then Except.ok ((l.drop lo).take (hi - lo))
  else Except.error ("slice index out of range")

/-- `pub fn get_bands` (frequency_bands.rs lines 18-49): the fixed
seven-band table, the last band reaching `sample_rate / 2` (integer
division, as in Rust `usize` division). -/
def get_bands (sample_rate : ℕ) : List FrequencyBand :=
  [⟨20, 60⟩, ⟨60, 250⟩, ⟨250, 500⟩, ⟨500, 2000⟩,
   ⟨2000, 4000⟩, ⟨4000, 6000⟩, ⟨6000, sample_rate / 2⟩]

/-- The bin-range computation of `calculate_band_energies`
(frequency_bands.rs lines 83-90):
`low_bin = (band.low_hz * FRAME_SIZE / sample_rate).max(0)` and
`high_bin = (band.high_hz * FRAME_SIZE / sample_rate).min(FRAME_SIZE / 2)`,
with Rust integer (flooring) division. -/
def bandBins (bands : List FrequencyBand) (sample_rate : ℕ) : List (ℕ × ℕ) :=
  bands.map (fun band =>
    (max (band.low_hz * FRAME_SIZE / sample_rate) 0,
     min (band.high_hz * FRAME_SIZE / sample_rate) (FRAME_SIZE / 2)))

/-- The frame start indices of `calculate_band_energies`
(frequency_bands.rs line 96):
`(0..samples.len().saturating_sub(FRAME_SIZE)).step_by(HOP_SIZE)`,
i.e. `0, HOP_SIZE, 2*HOP_SIZE, …` strictly below
`n - FRAME_SIZE` (saturating subtraction). -/
def frameStarts (n : ℕ) : List ℕ :=
  (List.range ((n - FRAME_SIZE + (HOP_SIZE - 1)) / HOP_SIZE)).map (fun k => k * HOP_SIZE)

/-- The body of the frame loop of `calculate_band_energies`
(frequency_bands.rs lines 97-125) for the frame starting at `i`:
slice the frame, apply the Hann window
`0.5 * (1 - cos(2*PI*j / (FRAME_SIZE - 1)))` producing a complex buffer
with zero imaginary parts, run the forward FFT, take the magnitude
spectrum `sqrt(re*re + im*im)` of the first `FRAME_SIZE / 2` bins, and
produce, per band, the sum of squared magnitudes over the band's bin
slice `magnitude[low_bin..high_bin]`. -/
def frameBandEnergies (E : ExternalOps) (samples : List ℚ) (band_bins : List (ℕ × ℕ))
    (i : ℕ) : Except String (List ℚ) := do
  let frame ← sliceE samples i (i + FRAME_SIZE)
  let windowed := frame.enum.map (fun js =>
    (js.2 * (1/2 * (1 - E.cosQ (2 * E.piQ * (js.1 : ℚ) / ((FRAME_SIZE : ℚ) - 1)))), (0 : ℚ)))
  let transformed := E.fftQ windowed
  let half ← sliceE transformed 0 (FRAME_SIZE / 2)
  let magnitude := half.map (fun c => E.sqrtQ (c.1 * c.1 + c.2 * c.2))
  band_bins.mapM (fun bb =>
    (sliceE magnitude bb.1 bb.2).map (fun seg => (seg.map (fun m => m * m)).sum))

/-- `pub fn calculate_band_energies` (frequency_bands.rs lines 74-136):
computes the bin ranges, accumulates the per-band energies (as `f64`)
and the frame count over all frames, then divides every accumulated
energy by the frame count.  The division is performed unconditionally,
exactly as in the source (`*energy /= frame_count as f64`), so a zero
frame count divides `0.0` by `0`. -/
def calculate_band_energies (E : ExternalOps) (samples : List ℚ) (sample_rate : ℕ)
    (bands : List FrequencyBand) : Except String (List F) := do
  let acc ← (frameStarts samples.length).foldlM
    (fun (acc : List ℚ × ℕ) i => do
      let fe ← frameBandEnergies E samples (bandBins bands sample_rate) i
      pure (acc.1.zipWith (fun a b => a + b) fe, acc.2 + 1))
    (List.replicate bands.length (0 : ℚ), 0)
  pure (acc.1.map (fun energy => Fdiv (F.fin energy) (F.fin (acc.2 : ℚ))))

/-- The sign-change test of `calculate_zero_crossing_rate`
(frequency_bands.rs lines 147-148), with `prev = samples[i-1]` and
`cur = samples[i]`; exactly `0.0` counts as nonnegative. -/
def crossing (prev cur : ℚ) : Bool :=
  (decide (0 ≤ cur) && decide (prev < 0)) || (decide (cur < 0) && decide (0 ≤ prev))

/-- The crossing count of `calculate_zero_crossing_rate`
(frequency_bands.rs lines 143-152): the number of indices `i ≥ 1` whose
pair `(samples[i-1], samples[i])` changes sign. -/
def zero_crossings (samples : List ℚ) : ℕ :=
  (samples.zip samples.tail).countP (fun p => crossing p.1 p.2)

/-- `pub fn calculate_zero_crossing_rate` (frequency_bands.rs lines
138-163): `0` for fewer than two samples, otherwise the crossing rate
`crossings / samples.len()` normalized by `(zcr / 0.15 * 100).min(100)`. -/
def calculate_zero_crossing_rate (samples : List ℚ) : ℚ :=
  if samples.length < 2 then 0
  else min ((zero_crossings samples : ℚ) / (samples.length : ℚ) / (15/100) * 100) 100

/-- `pub struct SpectrumMetrics` (frequency_bands.rs lines 11-16). -/
structure SpectrumMetrics where
  centroid : F
  spread : F
  zero_crossing_rate : F
  band_percentages : List F
deriving DecidableEq, Repr

/-- The fixed position array `[8.0, 18.0, 30.0, 45.0, 62.0, 78.0, 92.0]`
of `analyze_frequency_distribution` (main.rs line 200). -/
def band_positions : List ℚ := [8, 18, 30, 45, 62, 78, 92]

/-- The percentage conversion of `analyze_frequency_distribution`
(main.rs lines 184-196): `energy / total_energy * 100` when
`total_energy > 0.0`, else `0.0`. -/
def band_percentages_of (band_energies : List F) : List F :=
  let total_energy := Fsum band_energies
  band_energies.map (fun energy =>
    if Flt (F.fin 0) total_energy = true then Fmul (Fdiv energy total_energy) (F.fin 100)
    else F.fin 0)

/-- The spectral centroid of `analyze_frequency_distribution`
(main.rs lines 198-206): `Σ (pct * pos) / 100`. -/
def centroid_of (band_percentages : List F) : F :=
  Fdiv (Fsum (band_percentages.zipWith
    (fun pct pos => Fmul pct (F.fin pos)) band_positions)) (F.fin 100)

/-- The variance of `analyze_frequency_distribution` (main.rs lines
208-217): `Σ (pct * diff * diff) / 100` with `diff = pos - centroid`. -/
def variance_of (band_percentages : List F) (centroid : F) : F :=
  Fdiv (Fsum (band_percentages.zipWith
    (fun pct pos => Fmul (Fmul pct (Fsub (F.fin pos) centroid)) (Fsub (F.fin pos) centroid))
    band_positions)) (F.fin 100)

/-- The descriptor block of `analyze_frequency_distribution` (main.rs
lines 184-229): percentages, centroid, spread
`sqrt(variance)` with normalization `(spread / 35.0 * 100.0).min(100.0)`,
assembled into the returned `SpectrumMetrics`. -/
def computeMetrics (sqrtQ : ℚ → ℚ) (band_energies : List F) (zcr : ℚ) : SpectrumMetrics :=
  let band_percentages := band_percentages_of band_energies
  let centroid := centroid_of band_percentages
  let spread := Fsqrt sqrtQ (variance_of band_percentages centroid)
  let normalized_spread := Fmin (Fmul (Fdiv spread (F.fin 35)) (F.fin 100)) (F.fin 100)
  { centroid := centroid, spread := normalized_spread,
    zero_crossing_rate := F.fin zcr, band_percentages := band_percentages }

/-- `fn analyze_frequency_distribution` (main.rs lines 166-230).  The
`samples` / `sample_rate` arguments stand for the output of the external
MP3 decoder `get_samples` (out of scope per the design, §1/§6 of the
spec).  Empty input fails with "No audio data found" (lines 171-173);
otherwise the band energies are computed over the seven bands, the
zero-crossing rate over the raw samples, and the descriptors derived. -/
def analyze_frequency_distribution (E : ExternalOps) (samples : List ℚ)
    (sample_rate : ℕ) : Except String SpectrumMetrics :=
  if samples.isEmpty then Except.error ("No audio data found")
  else
    (calculate_band_energies E samples sample_rate (get_bands sample_rate)).map
      (fun band_energies =>
        computeMetrics E.sqrtQ band_energies (calculate_zero_crossing_rate samples))

/-! ### Generic helper lemmas about `Except` -/

theorem ok_bind {α β : Type} (a : α) (f : α → Except String β) :
    (Except.ok a >>= f) = f a := rfl

theorem error_bind {α β : Type} (e : String) (f : α → Except String β) :
    ((Except.error e : Except String α) >>= f) = Except.error e := rfl

theorem map_ok {α β : Type} (g : α → β) (a : α) :
    (Except.ok a : Except String α).map g = Except.ok (g a) := rfl

theorem map_error {α β : Type} (g : α → β) (e : String) :
    (Except.error e : Except String α).map g = (Except.error e : Except String β) := rfl

theorem pure_eq_ok {α : Type} (a : α) : (pure a : Except String α) = Except.ok a := rfl

theorem bind_ok_inv {α β : Type} {x : Except String α} {f : α → Except String β} {b : β}
    (h : (x >>= f) = Except.ok b) : ∃ a, x = Except.ok a ∧ f a = Except.ok b := by
  cases x with
  | error e => rw [error_bind] at h; exact absurd h (by intro hh; cases hh)
  | ok a => exact ⟨a, rfl, h⟩

/-! ### Frame iteration -/

theorem mem_frameStarts (n i : ℕ) :
    i ∈ frameStarts n ↔ HOP_SIZE ∣ i ∧ i + FRAME_SIZE < n := by
  simp only [frameStarts, List.mem_map, List.mem_range, FRAME_SIZE, HOP_SIZE]
  constructor
  · rintro ⟨k, hk, rfl⟩
    exact ⟨dvd_mul_left 512 k, by omega⟩
  · rintro ⟨⟨k, rfl⟩, hlt⟩
    exact ⟨k, by omega, by omega⟩

theorem frameStarts_eq_nil {n : ℕ} (h : n ≤ FRAME_SIZE) : frameStarts n = [] := by
  have h0 : (n - FRAME_SIZE + (HOP_SIZE - 1)) / HOP_SIZE = 0 := by
    simp only [FRAME_SIZE, HOP_SIZE] at h ⊢
    omega
  simp [frameStarts, h0]

/-- When the sample buffer holds at most one frame's worth of samples the
frame loop never runs, the accumulated energies stay at their initial
`0.0` and the frame count stays `0`, and the unconditional average then
computes `0.0 / 0 = NaN` for every band. -/
theorem calc_energies_zero_frames (E : ExternalOps) (samples : List ℚ) (sample_rate : ℕ)
    (bands : List FrequencyBand) (h : samples.length ≤ FRAME_SIZE) :
    calculate_band_energies E samples sample_rate bands =
      Except.ok (List.replicate bands.length F.nan) := by
  unfold calculate_band_energies
  rw [frameStarts_eq_nil h, List.foldlM_nil, pure_bind]
  have hdiv : Fdiv (F.fin 0) (F.fin 0) = F.nan := by
    norm_num [Fdiv]
  simp [hdiv, pure_eq_ok]

/-- C1: the claim states that `calculate_band_energies` detects
`frame_count == 0` before averaging and never divides by a zero frame
count.  The code does the opposite: the division at
frequency_bands.rs line 132 is unconditional, so with at most one
frame's worth of samples every band energy becomes `0.0 / 0 = NaN`.
This theorem evaluates the code on that failing class of inputs. -/
theorem zero_frame_count_division_produces_nan (E : ExternalOps) (samples : List ℚ)
    (sample_rate : ℕ) (bands : List FrequencyBand) (h : samples.length ≤ FRAME_SIZE) :
    calculate_band_energies E samples sample_rate bands =
      Except.ok (List.replicate bands.length F.nan) :=
  calc_energies_zero_frames E samples sample_rate bands h

theorem zero_frame_count_division_produces_nan_witness :
    (List.replicate 2048 (0 : ℚ)).length ≤ FRAME_SIZE ∧
    calculate_band_energies ⟨0, fun _ => 0, fun _ => 0, id⟩ (List.replicate 2048 (0 : ℚ))
      44100 (get_bands 44100) = Except.ok (List.replicate 7 F.nan) :=
  ⟨by rw [List.length_replicate]; norm_num [FRAME_SIZE],
   zero_frame_count_division_produces_nan ⟨0, fun _ => 0, fun _ => 0, id⟩
     (List.replicate 2048 (0 : ℚ)) 44100 (get_bands 44100)
     (by rw [List.length_replicate]; norm_num [FRAME_SIZE])⟩

/-- C3: the claim (and §4.1 of the spec) require frames at every
`i = 0, H, 2H, …` with `i + F ≤ N`, so that a buffer of exactly
`F = 2048` samples yields one frame.  The code iterates
`0..N.saturating_sub(F)` which is exclusive of its upper bound: the
frame starts are exactly the multiples of `H` with `i + F < N`
(strictly), and a buffer of exactly `F` samples yields zero frames. -/
theorem frame_iteration_is_strict :
    frameStarts FRAME_SIZE = [] ∧
    ∀ n i : ℕ, i ∈ frameStarts n ↔ HOP_SIZE ∣ i ∧ i + FRAME_SIZE < n :=
  ⟨by decide, mem_frameStarts⟩

/-! ### C2: degenerate bands at low sample rates -/

theorem sliceE_ok {α : Type} (l : List α) (lo hi : ℕ) (h1 : lo ≤ hi) (h2 : hi ≤ l.length) :
    sliceE l lo hi = Except.ok ((l.drop lo).take (hi - lo)) := by
  unfold sliceE
  rw [if_pos ⟨h1, h2⟩]

theorem sliceE_error {α : Type} (l : List α) (lo hi : ℕ) (h : ¬(lo ≤ hi ∧ hi ≤ l.length)) :
    sliceE l lo hi = Except.error ("slice index out of range") := by
  unfold sliceE
  rw [if_neg h]

/-- On a magnitude spectrum of the full 1024 bins, the per-band slices of
the 8000 Hz bin table succeed for the first six bands but the seventh,
`magnitude[1536..1024]`, is an invalid range and panics. -/
theorem mapM_bins_8000_panics {m : List ℚ} (hm : m.length = 1024) :
    List.mapM (fun bb : ℕ × ℕ =>
      (sliceE m bb.1 bb.2).map (fun seg => (seg.map (fun x => x * x)).sum))
      [(5, 15), (15, 64), (64, 128), (128, 512), (512, 1024), (1024, 1024), (1536, 1024)] =
      Except.error ("slice index out of range") := by
  rw [← List.mapM'_eq_mapM]
  simp only [List.mapM', sliceE, hm]
  norm_num [ok_bind, error_bind, map_ok, map_error, pure_eq_ok]

theorem half_and_bins_8000_panic (sqrtQ : ℚ → ℚ) (l : List (ℚ × ℚ)) (hl : l.length = 2048) :
    (sliceE l 0 (FRAME_SIZE / 2) >>= fun half =>
      List.mapM (fun bb : ℕ × ℕ =>
        (sliceE (half.map (fun c => sqrtQ (c.1 * c.1 + c.2 * c.2))) bb.1 bb.2).map
          (fun seg => (seg.map (fun x => x * x)).sum))
        [(5, 15), (15, 64), (64, 128), (128, 512), (512, 1024), (1024, 1024), (1536, 1024)]) =
      Except.error ("slice index out of range") := by
  rw [sliceE_ok l 0 (FRAME_SIZE / 2) (by omega) (by rw [hl]; norm_num [FRAME_SIZE])]
  rw [ok_bind]
  exact mapM_bins_8000_panics (by
    rw [List.length_map, List.length_take, List.length_drop, hl]
    norm_num [FRAME_SIZE])

/-- C2: the claim states the bin ranges always satisfy
`low_bin ≤ high_bin ≤ FRAME_SIZE/2` and that `calculate_band_energies`
returns `Ok` for every positive sample rate when at least one frame is
available.  At `sample_rate = 8000` the last band (6000 Hz to the 4000 Hz
Nyquist) gets `low_bin = 1536 > 1024 = high_bin`, and with one frame the
slice `magnitude[1536..1024]` panics instead of contributing zero
energy. -/
theorem low_sample_rate_inverted_bins_panic :
    bandBins (get_bands 8000) 8000 =
      [(5, 15), (15, 64), (64, 128), (128, 512), (512, 1024), (1024, 1024), (1536, 1024)] ∧
    ∀ E : ExternalOps, (∀ l, (E.fftQ l).length = l.length) →
      ∀ samples : List ℚ, samples.length = 2049 →
        calculate_band_energies E samples 8000 (get_bands 8000) =
          Except.error ("slice index out of range") := by
  refine ⟨by decide, ?_⟩
  intro E hf samples hlen
  have hbins : bandBins (get_bands 8000) 8000 =
      [(5, 15), (15, 64), (64, 128), (128, 512), (512, 1024), (1024, 1024), (1536, 1024)] := by
    decide
  have hfe : frameBandEnergies E samples
      [(5, 15), (15, 64), (64, 128), (128, 512), (512, 1024), (1024, 1024), (1536, 1024)] 0 =
      Except.error ("slice index out of range") := by
    unfold frameBandEnergies
    rw [sliceE_ok samples 0 (0 + FRAME_SIZE) (by omega) (by rw [hlen]; norm_num [FRAME_SIZE])]
    simp only [ok_bind]
    exact half_and_bins_8000_panic E.sqrtQ _ (by
      rw [hf, List.length_map, List.enum_length, List.length_take, List.length_drop, hlen]
      norm_num [FRAME_SIZE])
  unfold calculate_band_energies
  have hfs : frameStarts samples.length = [0] := by rw [hlen]; decide
  rw [hfs, List.foldlM_cons, hbins]
  simp only []
  rw [hfe]
  rfl

theorem low_sample_rate_inverted_bins_panic_witness :
    calculate_band_energies ⟨0, fun _ => 0, fun _ => 0, id⟩ (List.replicate 2049 (0:ℚ)) 8000
      (get_bands 8000) = Except.error ("slice index out of range") :=
  low_sample_rate_inverted_bins_panic.2 ⟨0, fun _ => 0, fun _ => 0, id⟩ (fun l => rfl)
    (List.replicate 2049 (0:ℚ)) (by rw [List.length_replicate])

/-- C6: empty decoded input is reported as the explicit error
"No audio data found" (main.rs lines 171-173), not as a zeroed
metrics record. -/
theorem empty_input_is_explicit_error (E : ExternalOps) (sample_rate : ℕ) :
    analyze_frequency_distribution E [] sample_rate =
      Except.error ("No audio data found") := rfl

/-- C8: for every sample rate the band table is strictly increasing in
`low_hz` and the last band's `high_hz` is `sample_rate / 2`. -/
theorem bands_increasing_and_last_is_nyquist (sample_rate : ℕ) :
    List.Chain' (fun a b => a.low_hz < b.low_hz) (get_bands sample_rate) ∧
    ((get_bands sample_rate).getLast?).map FrequencyBand.high_hz = some (sample_rate / 2) := by
  refine ⟨?_, rfl⟩
  simp [get_bands, List.chain'_cons]

/-! ### C7: zero-crossing rate -/

/-- The alternating sequence `+1, -1, +1, -1, …`, built with an explicit
sign state (`true` for `+1`). -/
def altSign : Bool → ℕ → List ℚ
  | _, 0 => []
  | s, n + 1 => (if s then 1 else -1) :: altSign (!s) n

/-- The alternating sequence `+1, -1, +1, -1, …` of length `n`. -/
def altList (n : ℕ) : List ℚ := altSign true n

theorem altSign_length (s : Bool) (n : ℕ) : (altSign s n).length = n := by
  induction n generalizing s with
  | zero => rfl
  | succ n ih => simp [altSign, ih]

theorem altSign_all_crossing :
    ∀ (n : ℕ) (s : Bool) (p : ℚ × ℚ), p ∈ (altSign s n).zip (altSign s n).tail →
      crossing p.1 p.2 = true := by
  intro n
  induction n with
  | zero => intro s p hp; simp [altSign] at hp
  | succ n ih =>
    intro s p hp
    cases n with
    | zero => cases s <;> simp [altSign] at hp
    | succ m =>
      cases s with
      | true =>
        simp only [altSign, Bool.not_true, if_true, if_false, List.tail_cons,
          List.zip_cons_cons, List.mem_cons] at hp
        rcases hp with h | h
        · rw [h]; norm_num [crossing]
        · exact ih false p (by simpa [altSign, List.tail_cons] using h)
      | false =>
        simp only [altSign, Bool.not_false, if_true, if_false, List.tail_cons,
          List.zip_cons_cons, List.mem_cons] at hp
        rcases hp with h | h
        · rw [h]; norm_num [crossing]
        · exact ih true p (by simpa [altSign, List.tail_cons] using h)

theorem zc_all_crossing (l : List ℚ) (h : ∀ p ∈ l.zip l.tail, crossing p.1 p.2 = true) :
    zero_crossings l = l.length - 1 := by
  unfold zero_crossings
  rw [List.countP_eq_length.mpr (fun p hp => h p hp)]
  rw [List.length_zip, List.length_tail]
  omega

theorem zcr_altList_eq_100 (n : ℕ) (hn : 2 ≤ n) :
    calculate_zero_crossing_rate (altList n) = 100 := by
  have hlen : (altList n).length = n := altSign_length true n
  have hzc : zero_crossings (altList n) = n - 1 := by
    rw [zc_all_crossing (altList n) (altSign_all_crossing n true), hlen]
  unfold calculate_zero_crossing_rate
  rw [hlen, hzc, if_neg (by omega)]
  have ha : (2:ℚ) ≤ (n:ℚ) := by exact_mod_cast hn
  have ha0 : (0:ℚ) < (n:ℚ) := by linarith
  have hcast : ((n - 1 : ℕ) : ℚ) = (n : ℚ) - 1 := by
    have h1 : 1 ≤ n := by omega
    push_cast [h1]
    ring
  rw [hcast, min_eq_right]
  have h1 : (15/100 : ℚ) ≤ ((n:ℚ) - 1) / (n:ℚ) := by
    rw [div_le_div_iff₀ (by norm_num) ha0]
    linarith
  have h2 : (1:ℚ) ≤ ((n:ℚ) - 1) / (n:ℚ) / (15/100) := by
    rw [le_div_iff₀ (by norm_num : (0:ℚ) < 15/100)]
    linarith
  nlinarith [h2]

theorem zcr_no_crossings (samples : List ℚ)
    (h : ∀ p ∈ samples.zip samples.tail, crossing p.1 p.2 = false) :
    calculate_zero_crossing_rate samples = 0 := by
  unfold calculate_zero_crossing_rate
  by_cases hl : samples.length < 2
  · rw [if_pos hl]
  · rw [if_neg hl]
    have hzc : zero_crossings samples = 0 := by
      unfold zero_crossings
      rw [List.countP_eq_zero.mpr]
      intro p hp
      simp [h p hp]
    rw [hzc]
    norm_num

/-- C7: `calculate_zero_crossing_rate` returns `0` for every sequence of
length below two and for every sequence without a sign change, `100` for
every alternating `+1,-1,+1,-1,…` sequence of length at least two, and in
general (length at least two) computes
`min(crossings / sample_count / 0.15 * 100, 100)` where a crossing is
counted at each adjacent pair whose sign changes, `0.0` counting as
nonnegative. -/
theorem zero_crossing_rate_properties :
    (∀ samples : List ℚ, samples.length < 2 → calculate_zero_crossing_rate samples = 0) ∧
    (∀ samples : List ℚ, (∀ p ∈ samples.zip samples.tail, crossing p.1 p.2 = false) →
      calculate_zero_crossing_rate samples = 0) ∧
    (∀ n : ℕ, 2 ≤ n → calculate_zero_crossing_rate (altList n) = 100) ∧
    altList 4 = [1, -1, 1, -1] ∧
    (∀ a b : ℚ, crossing a b = true ↔ ((0 ≤ b ∧ a < 0) ∨ (b < 0 ∧ 0 ≤ a))) ∧
    (∀ samples : List ℚ, 2 ≤ samples.length →
      calculate_zero_crossing_rate samples =
        min ((zero_crossings samples : ℚ) / (samples.length : ℚ) / (15/100) * 100) 100) := by
  refine ⟨?_, zcr_no_crossings, zcr_altList_eq_100, by norm_num [altList, altSign], ?_, ?_⟩
  · intro samples h
    unfold calculate_zero_crossing_rate
    rw [if_pos h]
  · intro a b
    simp [crossing]
  · intro samples h
    unfold calculate_zero_crossing_rate
    rw [if_neg (by omega)]

theorem zero_crossing_rate_properties_witness :
    calculate_zero_crossing_rate ([5] : List ℚ) = 0 ∧
    calculate_zero_crossing_rate ([1, 1, 1] : List ℚ) = 0 ∧
    calculate_zero_crossing_rate (altList 4) = 100 :=
  ⟨zero_crossing_rate_properties.1 [5] (by norm_num),
   zero_crossing_rate_properties.2.1 [1, 1, 1] (by
     intro p hp
     simp only [List.tail_cons, List.zip_cons_cons, List.zip_nil_right, List.mem_cons] at hp
     rcases hp with h | h | h
     · rw [h]; norm_num [crossing]
     · rw [h]; norm_num [crossing]
     · simp at h),
   zero_crossing_rate_properties.2.2.1 4 (by norm_num)⟩

/-! ### Arithmetic of the float model on finite values -/

theorem foldl_Fadd_map_fin (l : List ℚ) :
    ∀ a : ℚ, (l.map F.fin).foldl Fadd (F.fin a) = F.fin (a + l.sum) := by
  induction l with
  | nil => intro a; simp
  | cons q l ih => intro a; simp [Fadd, ih, add_assoc]

theorem Fsum_map_fin (l : List ℚ) : Fsum (l.map F.fin) = F.fin l.sum := by
  unfold Fsum
  rw [foldl_Fadd_map_fin l 0, zero_add]

theorem Fdiv_fin_of_ne (a b : ℚ) (hb : b ≠ 0) : Fdiv (F.fin a) (F.fin b) = F.fin (a / b) := by
  simp [Fdiv, hb]

theorem zipWith_Fmul_fin (l1 l2 : List ℚ) :
    List.zipWith (fun pct pos => Fmul pct (F.fin pos)) (l1.map F.fin) l2 =
      (List.zipWith (fun a b => a * b) l1 l2).map F.fin := by
  induction l1 generalizing l2 with
  | nil => simp
  | cons a l ih =>
    cases l2 with
    | nil => simp
    | cons b l2 =>
      simp only [List.map_cons, List.zipWith_cons_cons, ih]
      rfl

theorem zipWith_var_fin (l1 l2 : List ℚ) (c : ℚ) :
    List.zipWith (fun pct pos =>
        Fmul (Fmul pct (Fsub (F.fin pos) (F.fin c))) (Fsub (F.fin pos) (F.fin c)))
      (l1.map F.fin) l2 =
      (List.zipWith (fun a b => a * (b - c) * (b - c)) l1 l2).map F.fin := by
  induction l1 generalizing l2 with
  | nil => simp
  | cons a l ih =>
    cases l2 with
    | nil => simp
    | cons b l2 =>
      simp only [List.map_cons, List.zipWith_cons_cons, ih]
      rfl

theorem centroid_of_map_fin (l : List ℚ) :
    centroid_of (l.map F.fin) =
      F.fin ((List.zipWith (fun a b => a * b) l band_positions).sum / 100) := by
  unfold centroid_of
  rw [zipWith_Fmul_fin, Fsum_map_fin, Fdiv_fin_of_ne _ _ (by norm_num)]

theorem variance_of_map_fin (l : List ℚ) (c : ℚ) :
    variance_of (l.map F.fin) (F.fin c) =
      F.fin ((List.zipWith (fun a b => a * (b - c) * (b - c)) l band_positions).sum / 100) := by
  unfold variance_of
  rw [zipWith_var_fin, Fsum_map_fin, Fdiv_fin_of_ne _ _ (by norm_num)]

theorem sum_zipWith_zero_left (f : ℚ → ℚ → ℚ) (hf : ∀ b, f 0 b = 0) :
    ∀ (n : ℕ) (l : List ℚ), (List.zipWith f (List.replicate n 0) l).sum = 0 := by
  intro n
  induction n with
  | zero => intro l; simp
  | succ n ih =>
    intro l
    cases l with
    | nil => simp
    | cons b l => simp [List.replicate_succ, hf, ih l]

/-! ### The descriptor block (main.rs lines 184-229) -/

theorem computeMetrics_band_percentages (sqrtQ : ℚ → ℚ) (es : List F) (z : ℚ) :
    (computeMetrics sqrtQ es z).band_percentages = band_percentages_of es := rfl

theorem computeMetrics_zcr (sqrtQ : ℚ → ℚ) (es : List F) (z : ℚ) :
    (computeMetrics sqrtQ es z).zero_crossing_rate = F.fin z := rfl

theorem computeMetrics_centroid (sqrtQ : ℚ → ℚ) (es : List F) (z : ℚ) :
    (computeMetrics sqrtQ es z).centroid = centroid_of (band_percentages_of es) := rfl

theorem computeMetrics_spread (sqrtQ : ℚ → ℚ) (es : List F) (z : ℚ) :
    (computeMetrics sqrtQ es z).spread =
      Fmin (Fmul (Fdiv (Fsqrt sqrtQ (variance_of (band_percentages_of es)
        (centroid_of (band_percentages_of es)))) (F.fin 35)) (F.fin 100)) (F.fin 100) := rfl

theorem band_percentages_zero_total (es : List F) (h : Fsum es = F.fin 0) :
    band_percentages_of es = List.replicate es.length (F.fin 0) := by
  unfold band_percentages_of
  rw [h]
  have hlt : Flt (F.fin 0) (F.fin 0) = false := by simp [Flt]
  simp [hlt]

theorem band_percentages_pos_total (qs : List ℚ) (h : 0 < qs.sum) :
    band_percentages_of (qs.map F.fin) = (qs.map (fun q => q / qs.sum * 100)).map F.fin := by
  unfold band_percentages_of
  rw [Fsum_map_fin]
  have hlt : Flt (F.fin 0) (F.fin qs.sum) = true := by simpa [Flt] using h
  simp only [hlt, if_true, List.map_map]
  apply List.map_congr_left
  intro q _
  simp only [Function.comp_apply]
  rw [Fdiv_fin_of_ne _ _ (ne_of_gt h)]
  simp [Fmul]

/-- C4: in the descriptor block of `analyze_frequency_distribution`
(main.rs lines 184-222), a positive total energy yields
`band_percentages[i] = energies[i] / total_energy * 100` for every band,
and an exactly-zero total yields all-zero percentages, centroid and
spread, with no NaN in any output field. -/
theorem percentage_formula_and_zero_total_policy (sqrtQ : ℚ → ℚ) (es : List F) (zcr : ℚ)
    (hsq : sqrtQ 0 = 0) :
    (Flt (F.fin 0) (Fsum es) = true →
      (computeMetrics sqrtQ es zcr).band_percentages =
        es.map (fun energy => Fmul (Fdiv energy (Fsum es)) (F.fin 100))) ∧
    (Fsum es = F.fin 0 →
      (computeMetrics sqrtQ es zcr).band_percentages = List.replicate es.length (F.fin 0) ∧
      (computeMetrics sqrtQ es zcr).centroid = F.fin 0 ∧
      (computeMetrics sqrtQ es zcr).spread = F.fin 0 ∧
      isNan (computeMetrics sqrtQ es zcr).centroid = false ∧
      isNan (computeMetrics sqrtQ es zcr).spread = false ∧
      isNan (computeMetrics sqrtQ es zcr).zero_crossing_rate = false ∧
      ∀ p ∈ (computeMetrics sqrtQ es zcr).band_percentages, isNan p = false) := by
  constructor
  · intro h
    rw [computeMetrics_band_percentages]
    unfold band_percentages_of
    simp only [h, eq_self_iff_true, if_true]
  · intro h0
    have hbp : (computeMetrics sqrtQ es zcr).band_percentages =
        List.replicate es.length (F.fin 0) := by
      rw [computeMetrics_band_percentages, band_percentages_zero_total es h0]
    have hrep : List.replicate es.length (F.fin 0) =
        (List.replicate es.length (0:ℚ)).map F.fin := by
      rw [List.map_replicate]
    have hc : (computeMetrics sqrtQ es zcr).centroid = F.fin 0 := by
      rw [computeMetrics_centroid, band_percentages_zero_total es h0, hrep, centroid_of_map_fin]
      rw [sum_zipWith_zero_left (fun a b => a * b) (fun b => by ring)]
      norm_num
    have hcc : centroid_of (band_percentages_of es) = F.fin 0 := by
      rw [← computeMetrics_centroid sqrtQ es zcr]
      exact hc
    have hv : variance_of (band_percentages_of es)
        (centroid_of (band_percentages_of es)) = F.fin 0 := by
      rw [hcc, band_percentages_zero_total es h0, hrep, variance_of_map_fin]
      rw [sum_zipWith_zero_left (fun a b => a * (b - 0) * (b - 0)) (fun b => by ring)]
      norm_num
    have hs : (computeMetrics sqrtQ es zcr).spread = F.fin 0 := by
      rw [computeMetrics_spread, hv]
      have h1 : Fsqrt sqrtQ (F.fin 0) = F.fin 0 := by simp [Fsqrt, hsq]
      rw [h1, Fdiv_fin_of_ne 0 35 (by norm_num)]
      norm_num [Fmul, Fmin]
    refine ⟨hbp, hc, hs, ?_, ?_, ?_, ?_⟩
    · rw [hc]; rfl
    · rw [hs]; rfl
    · rw [computeMetrics_zcr]; rfl
    · intro p hp
      rw [hbp] at hp
      rw [List.eq_of_mem_replicate hp]
      rfl

theorem percentage_formula_and_zero_total_policy_witness :
    (computeMetrics id [F.fin 3, F.fin 1] 0).band_percentages =
      [F.fin 3, F.fin 1].map (fun energy =>
        Fmul (Fdiv energy (Fsum [F.fin 3, F.fin 1])) (F.fin 100)) ∧
    (computeMetrics id [F.fin 0] 0).band_percentages = List.replicate 1 (F.fin 0) ∧
    (computeMetrics id [F.fin 0] 0).centroid = F.fin 0 ∧
    (computeMetrics id [F.fin 0] 0).spread = F.fin 0 := by
  refine ⟨(percentage_formula_and_zero_total_policy id [F.fin 3, F.fin 1] 0 rfl).1
      (by norm_num [Fsum, Fadd, Flt]), ?_⟩
  have h2 := (percentage_formula_and_zero_total_policy id [F.fin 0] 0 rfl).2
      (by norm_num [Fsum, Fadd])
  exact ⟨h2.1, h2.2.1, h2.2.2.1⟩

/-! ### C5: bounds of the descriptors -/

theorem sum_zipWith_nonneg (f : ℚ → ℚ → ℚ) :
    ∀ (l1 l2 : List ℚ), (∀ a ∈ l1, ∀ b ∈ l2, 0 ≤ f a b) →
      0 ≤ (List.zipWith f l1 l2).sum := by
  intro l1
  induction l1 with
  | nil => intro l2 h; simp
  | cons a l ih =>
    intro l2 h
    cases l2 with
    | nil => simp
    | cons b l2 =>
      rw [List.zipWith_cons_cons, List.sum_cons]
      have h1 : 0 ≤ f a b := h a (by simp) b (by simp)
      have h2 : 0 ≤ (List.zipWith f l l2).sum :=
        ih l2 (fun x hx y hy => h x (by simp [hx]) y (by simp [hy]))
      linarith

theorem sum_zipWith_mul_le :
    ∀ (l1 l2 : List ℚ), (∀ a ∈ l1, 0 ≤ a) → (∀ b ∈ l2, b ≤ 92) →
      (List.zipWith (fun a b => a * b) l1 l2).sum ≤ 92 * l1.sum := by
  intro l1
  induction l1 with
  | nil => intro l2 _ _; simp
  | cons a l ih =>
    intro l2 h1 h2
    have ha : 0 ≤ a := h1 a (by simp)
    have hsum : 0 ≤ l.sum := List.sum_nonneg (fun x hx => h1 x (by simp [hx]))
    cases l2 with
    | nil =>
      rw [List.zipWith_nil_right, List.sum_nil, List.sum_cons]
      nlinarith
    | cons b l2 =>
      rw [List.zipWith_cons_cons, List.sum_cons, List.sum_cons]
      have hb : b ≤ 92 := h2 b (by simp)
      have hab : a * b ≤ a * 92 := mul_le_mul_of_nonneg_left hb ha
      have hrest := ih l2 (fun x hx => h1 x (by simp [hx])) (fun y hy => h2 y (by simp [hy]))
      nlinarith

theorem sum_map_mul_const (l : List ℚ) (c : ℚ) : (l.map (fun q => q * c)).sum = l.sum * c := by
  induction l with
  | nil => simp
  | cons a l ih => simp [ih, add_mul]

theorem band_positions_bounds : ∀ b ∈ band_positions, 0 ≤ b ∧ b ≤ 92 := by
  intro b hb
  simp only [band_positions, List.mem_cons, List.not_mem_nil, or_false] at hb
  rcases hb with rfl | rfl | rfl | rfl | rfl | rfl | rfl <;> norm_num

theorem percentages_sum_eq_100 (qs : List ℚ) (hpos : 0 < qs.sum) :
    (qs.map (fun q => q / qs.sum * 100)).sum = 100 := by
  have h1 : (qs.map (fun q => q / qs.sum * 100)).sum =
      (qs.map (fun q => q * (100 / qs.sum))).sum := by
    apply congrArg
    apply List.map_congr_left
    intro q _
    ring
  rw [h1, sum_map_mul_const]
  field_simp

/-- C5: for every finite nonnegative energy vector with a positive entry
the percentages sum to exactly 100 (the exact-arithmetic form of the
floating-point tolerance in the claim) and each lies in `[0, 100]`; and
for every finite nonnegative energy vector the centroid and the
normalized spread are finite values in `[0, 100]`. -/
theorem descriptor_bounds (sqrtQ : ℚ → ℚ) (qs : List ℚ) (zcr : ℚ)
    (hnn : ∀ q ∈ qs, 0 ≤ q)
    (hsq : ∀ q : ℚ, 0 ≤ q → 0 ≤ sqrtQ q) :
    ((∃ q ∈ qs, 0 < q) →
      Fsum (computeMetrics sqrtQ (qs.map F.fin) zcr).band_percentages = F.fin 100 ∧
      ∀ p ∈ (computeMetrics sqrtQ (qs.map F.fin) zcr).band_percentages,
        ∃ x : ℚ, p = F.fin x ∧ 0 ≤ x ∧ x ≤ 100) ∧
    (∃ c : ℚ, (computeMetrics sqrtQ (qs.map F.fin) zcr).centroid = F.fin c ∧
      0 ≤ c ∧ c ≤ 100) ∧
    (∃ s : ℚ, (computeMetrics sqrtQ (qs.map F.fin) zcr).spread = F.fin s ∧
      0 ≤ s ∧ s ≤ 100) := by
  have hT : 0 ≤ qs.sum := List.sum_nonneg hnn
  obtain ⟨ps, hps, hpnn, hple, hpsum⟩ :
      ∃ ps : List ℚ, band_percentages_of (qs.map F.fin) = ps.map F.fin ∧
        (∀ x ∈ ps, 0 ≤ x) ∧ (∀ x ∈ ps, x ≤ 100) ∧ ps.sum ≤ 100 := by
    by_cases hpos : 0 < qs.sum
    · refine ⟨qs.map (fun q => q / qs.sum * 100), band_percentages_pos_total qs hpos,
        ?_, ?_, ?_⟩
      · intro x hx
        obtain ⟨q, hq, rfl⟩ := List.mem_map.mp hx
        exact mul_nonneg (div_nonneg (hnn q hq) hT) (by norm_num)
      · intro x hx
        obtain ⟨q, hq, rfl⟩ := List.mem_map.mp hx
        have hqle : q ≤ qs.sum := List.single_le_sum hnn q hq
        have hq1 : q / qs.sum ≤ 1 := (div_le_one hpos).mpr hqle
        nlinarith
      · rw [percentages_sum_eq_100 qs hpos]
    · have h0 : qs.sum = 0 := le_antisymm (not_lt.mp hpos) hT
      refine ⟨List.replicate qs.length 0, ?_, ?_, ?_, ?_⟩
      · rw [band_percentages_zero_total _ (by rw [Fsum_map_fin, h0]), List.length_map,
          List.map_replicate]
      · intro x hx
        rw [List.eq_of_mem_replicate hx]
      · intro x hx
        rw [List.eq_of_mem_replicate hx]
        norm_num
      · simp
  have hposb : ∀ b ∈ band_positions, 0 ≤ b := fun b hb => (band_positions_bounds b hb).1
  have hposle : ∀ b ∈ band_positions, b ≤ 92 := fun b hb => (band_positions_bounds b hb).2
  have hS0 : 0 ≤ (List.zipWith (fun a b => a * b) ps band_positions).sum :=
    sum_zipWith_nonneg _ ps band_positions
      (fun a ha b hb => mul_nonneg (hpnn a ha) (hposb b hb))
  have hS92 : (List.zipWith (fun a b => a * b) ps band_positions).sum ≤ 9200 := by
    have h1 := sum_zipWith_mul_le ps band_positions hpnn hposle
    nlinarith
  refine ⟨?_, ?_, ?_⟩
  · rintro ⟨q0, hq0, hq0pos⟩
    have hpos : 0 < qs.sum := lt_of_lt_of_le hq0pos (List.single_le_sum hnn q0 hq0)
    rw [computeMetrics_band_percentages, band_percentages_pos_total qs hpos]
    constructor
    · rw [Fsum_map_fin, percentages_sum_eq_100 qs hpos]
    · intro p hp
      obtain ⟨x, hx, rfl⟩ := List.mem_map.mp hp
      obtain ⟨q, hq, rfl⟩ := List.mem_map.mp hx
      refine ⟨_, rfl, mul_nonneg (div_nonneg (hnn q hq) hT) (by norm_num), ?_⟩
      have hqle : q ≤ qs.sum := List.single_le_sum hnn q hq
      have hq1 : q / qs.sum ≤ 1 := (div_le_one hpos).mpr hqle
      nlinarith
  · rw [computeMetrics_centroid, hps, centroid_of_map_fin]
    refine ⟨_, rfl, by positivity, ?_⟩
    rw [div_le_iff₀ (by norm_num : (0:ℚ) < 100)]
    linarith
  · rw [computeMetrics_spread, hps, centroid_of_map_fin]
    set c := (List.zipWith (fun a b => a * b) ps band_positions).sum / 100 with hcdef
    rw [variance_of_map_fin]
    set v := (List.zipWith (fun a b => a * (b - c) * (b - c)) ps band_positions).sum / 100
      with hvdef
    have hvnn : 0 ≤ v := by
      rw [hvdef]
      apply div_nonneg _ (by norm_num)
      apply sum_zipWith_nonneg _ ps band_positions
      intro a ha b hb
      rw [mul_assoc]
      exact mul_nonneg (hpnn a ha) (mul_self_nonneg _)
    have hFsq : Fsqrt sqrtQ (F.fin v) = F.fin (sqrtQ v) := by
      simp [Fsqrt, not_lt.mpr hvnn]
    rw [hFsq, Fdiv_fin_of_ne _ _ (by norm_num : (35:ℚ) ≠ 0)]
    refine ⟨min (sqrtQ v / 35 * 100) 100, rfl, ?_, min_le_right _ _⟩
    exact le_min (mul_nonneg (div_nonneg (hsq v hvnn) (by norm_num)) (by norm_num))
      (by norm_num)

theorem descriptor_bounds_witness :
    Fsum (computeMetrics id ([(1:ℚ), 0].map F.fin) 0).band_percentages = F.fin 100 ∧
    (∃ c : ℚ, (computeMetrics id ([(1:ℚ), 0].map F.fin) 0).centroid = F.fin c ∧
      0 ≤ c ∧ c ≤ 100) := by
  have hnn : ∀ q ∈ [(1:ℚ), 0], 0 ≤ q := by
    intro q hq
    rcases List.mem_cons.mp hq with rfl | hq
    · norm_num
    · rw [List.eq_of_mem_singleton hq]
  refine ⟨((descriptor_bounds id [1, 0] 0 hnn (fun q hq => hq)).1
      ⟨1, by simp, by norm_num⟩).1,
    (descriptor_bounds id [1, 0] 0 hnn (fun q hq => hq)).2.1⟩

/-! ### C9: the NaN band energies of a short track fall through to zeros -/

theorem computeMetrics_replicate_nan (sqrtQ : ℚ → ℚ) (z : ℚ) (hsq : sqrtQ 0 = 0) :
    computeMetrics sqrtQ (List.replicate 7 F.nan) z =
      ⟨F.fin 0, F.fin 0, F.fin z, List.replicate 7 (F.fin 0)⟩ := by
  have hbp : band_percentages_of (List.replicate 7 F.nan) = List.replicate 7 (F.fin 0) := by
    unfold band_percentages_of
    have hlt : Flt (F.fin 0) (Fsum (List.replicate 7 F.nan)) = false := rfl
    simp only [List.map_replicate, hlt, Bool.false_eq_true, if_false]
  have hfin : List.replicate 7 (F.fin 0) = (List.replicate 7 (0:ℚ)).map F.fin := by
    rw [List.map_replicate]
  have hc : centroid_of (List.replicate 7 (F.fin 0)) = F.fin 0 := by
    rw [hfin, centroid_of_map_fin, sum_zipWith_zero_left (fun a b => a * b) (fun b => by ring)]
    norm_num
  have hv : variance_of (List.replicate 7 (F.fin 0)) (F.fin 0) = F.fin 0 := by
    rw [hfin, variance_of_map_fin,
      sum_zipWith_zero_left (fun a b => a * (b - 0) * (b - 0)) (fun b => by ring)]
    norm_num
  unfold computeMetrics
  simp only [hbp, hc, hv]
  have h1 : Fsqrt sqrtQ (F.fin 0) = F.fin 0 := by simp [Fsqrt, hsq]
  rw [h1, Fdiv_fin_of_ne 0 35 (by norm_num)]
  norm_num [Fmul, Fmin]

/-- The full pipeline on a nonempty buffer of at most one frame's worth
of samples: zero frames are processed, every band energy averages to
`0.0 / 0 = NaN`, the NaN total fails the `total_energy > 0.0` test, and
every derived output falls through to exactly zero. -/
theorem analyze_short_input_eval (E : ExternalOps) (samples : List ℚ) (sample_rate : ℕ)
    (hne : samples ≠ []) (hlen : samples.length ≤ FRAME_SIZE) (_hsr : 0 < sample_rate)
    (hsq : E.sqrtQ 0 = 0) :
    analyze_frequency_distribution E samples sample_rate =
      Except.ok ⟨F.fin 0, F.fin 0, F.fin (calculate_zero_crossing_rate samples),
        List.replicate 7 (F.fin 0)⟩ := by
  unfold analyze_frequency_distribution
  rw [if_neg (by simpa [List.isEmpty_iff] using hne)]
  rw [calc_energies_zero_frames E samples sample_rate (get_bands sample_rate) hlen]
  rw [show (get_bands sample_rate).length = 7 from rfl, map_ok]
  rw [computeMetrics_replicate_nan E.sqrtQ _ hsq]

/-- C9: a nonempty sample buffer no longer than one frame still yields
`Ok` from `analyze_frequency_distribution`, with every band percentage,
the centroid and the spread equal to exactly `0` and no NaN in any
output field: the NaN total energy produced by the zero-frame average
fails the `total_energy > 0.0` test, so every output falls through to
zero. -/
theorem short_track_analyzes_to_zero_metrics (E : ExternalOps) (samples : List ℚ)
    (sample_rate : ℕ) (hne : samples ≠ []) (hlen : samples.length ≤ FRAME_SIZE)
    (hsr : 0 < sample_rate) (hsq : E.sqrtQ 0 = 0) :
    analyze_frequency_distribution E samples sample_rate =
      Except.ok ⟨F.fin 0, F.fin 0, F.fin (calculate_zero_crossing_rate samples),
        List.replicate 7 (F.fin 0)⟩ :=
  analyze_short_input_eval E samples sample_rate hne hlen hsr hsq

theorem short_track_analyzes_to_zero_metrics_witness :
    analyze_frequency_distribution ⟨0, fun _ => 0, id, id⟩ [0] 44100 =
      Except.ok ⟨F.fin 0, F.fin 0, F.fin (calculate_zero_crossing_rate [0]),
        List.replicate 7 (F.fin 0)⟩ :=
  short_track_analyzes_to_zero_metrics ⟨0, fun _ => 0, id, id⟩ [0] 44100
    (by simp) (by norm_num [FRAME_SIZE]) (by norm_num) rfl

/-! ### C10: seven bands, seven positions, seven percentages -/

theorem mapM_ok_length_aux {α β : Type} (f : α → Except String β) :
    ∀ (l : List α) (r : List β), l.mapM' f = Except.ok r → r.length = l.length := by
  intro l
  induction l with
  | nil =>
    intro r h
    simp only [List.mapM'] at h
    cases h
    rfl
  | cons a l ih =>
    intro r h
    simp only [List.mapM'] at h
    cases hfa : f a with
    | error e =>
      simp only [hfa, error_bind] at h
      cases h
    | ok b =>
      cases hml : l.mapM' f with
      | error e =>
        simp only [hfa, hml, ok_bind, error_bind] at h
        cases h
      | ok bs =>
        simp only [hfa, hml, ok_bind, pure_eq_ok] at h
        cases h
        simp [ih bs hml]

theorem mapM_ok_length {α β : Type} (f : α → Except String β) (l : List α) (r : List β)
    (h : l.mapM f = Except.ok r) : r.length = l.length :=
  mapM_ok_length_aux f l r (by rw [List.mapM'_eq_mapM]; exact h)

theorem foldlM_ok_invariant {σ α : Type} (P : σ → Prop) (f : σ → α → Except String σ)
    (hstep : ∀ s a s', P s → f s a = Except.ok s' → P s') :
    ∀ (l : List α) (init r : σ), P init → l.foldlM f init = Except.ok r → P r := by
  intro l
  induction l with
  | nil =>
    intro init r h0 h
    rw [List.foldlM_nil] at h
    cases h
    exact h0
  | cons a l ih =>
    intro init r h0 h
    rw [List.foldlM_cons] at h
    cases hfa : f init a with
    | error e =>
      simp only [hfa, error_bind] at h
      cases h
    | ok s' =>
      simp only [hfa, ok_bind] at h
      exact ih s' r (hstep init a s' h0 hfa) h

theorem frameBandEnergies_ok_length (E : ExternalOps) (samples : List ℚ)
    (band_bins : List (ℕ × ℕ)) (i : ℕ) (fe : List ℚ)
    (h : frameBandEnergies E samples band_bins i = Except.ok fe) :
    fe.length = band_bins.length := by
  unfold frameBandEnergies at h
  obtain ⟨frame, hframe, h⟩ := bind_ok_inv h
  obtain ⟨half, hhalf, h⟩ := bind_ok_inv h
  exact mapM_ok_length _ _ _ h

theorem calc_energies_ok_length (E : ExternalOps) (samples : List ℚ) (sample_rate : ℕ)
    (bands : List FrequencyBand) (es : List F)
    (h : calculate_band_energies E samples sample_rate bands = Except.ok es) :
    es.length = bands.length := by
  unfold calculate_band_energies at h
  obtain ⟨acc, hacc, hpure⟩ := bind_ok_inv h
  have hlen : acc.1.length = bands.length := by
    refine foldlM_ok_invariant (fun s : List ℚ × ℕ => s.1.length = bands.length) _ ?_
      (frameStarts samples.length) (List.replicate bands.length 0, 0) acc ?_ hacc
    · intro s a s' hP hstep
      obtain ⟨fe, hfe, hp⟩ := bind_ok_inv hstep
      have hfel : fe.length = (bandBins bands sample_rate).length :=
        frameBandEnergies_ok_length E samples _ a fe hfe
      simp only [pure_eq_ok] at hp
      cases hp
      simp [List.length_zipWith, hP, hfel, bandBins]
    · simp
  simp only [pure_eq_ok] at hpure
  cases hpure
  simp [hlen]

/-- C10: `get_bands` always returns exactly seven bands, matching the
seven-element fixed position array of `analyze_frequency_distribution`,
and the `band_percentages` of every successful analysis has exactly
seven entries. -/
theorem seven_bands_match_positions (sample_rate : ℕ) :
    (get_bands sample_rate).length = 7 ∧
    band_positions.length = 7 ∧
    ∀ (E : ExternalOps) (samples : List ℚ) (m : SpectrumMetrics),
      analyze_frequency_distribution E samples sample_rate = Except.ok m →
      m.band_percentages.length = 7 := by
  refine ⟨rfl, rfl, ?_⟩
  intro E samples m h
  unfold analyze_frequency_distribution at h
  by_cases hemp : samples.isEmpty = true
  · rw [if_pos hemp] at h
    cases h
  · rw [if_neg hemp] at h
    cases hcalc : calculate_band_energies E samples sample_rate (get_bands sample_rate) with
    | error e =>
      rw [hcalc, map_error] at h
      cases h
    | ok es =>
      rw [hcalc, map_ok] at h
      cases h
      have hl := calc_energies_ok_length E samples sample_rate (get_bands sample_rate) es hcalc
      rw [computeMetrics_band_percentages]
      unfold band_percentages_of
      simp only [List.length_map, hl]
      rfl

theorem seven_bands_match_positions_witness :
    (get_bands 44100).length = 7 ∧ band_positions.length = 7 ∧
    (⟨F.fin 0, F.fin 0, F.fin (calculate_zero_crossing_rate [0]),
      List.replicate 7 (F.fin 0)⟩ : SpectrumMetrics).band_percentages.length = 7 :=
  ⟨(seven_bands_match_positions 44100).1, (seven_bands_match_positions 44100).2.1,
   (seven_bands_match_positions 44100).2.2 ⟨0, fun _ => 0, id, id⟩ [0] _
     (analyze_short_input_eval ⟨0, fun _ => 0, id, id⟩ [0] 44100 (by simp)
       (by norm_num [FRAME_SIZE]) (by norm_num) rfl)⟩

end DialMetric
